import Mathlib

set_option autoImplicit false

/-! # Output-file lifecycle subsystem: shallow embedding

A model of `src/files.rs`: the `FileManager` descriptor (builder-phase
setters, path resolution, series materialization) and the `ProjectManager`
batch initializer with its four collision policies.

Modelling conventions:
* Rust `PathBuf` is a pair of an absolute-path flag and a list of
  slash-separated components (`.` and `..` are treated as ordinary
  components; the repository never constructs them).
* The filesystem is an association list from paths to file contents,
  newest entry first; directories are implicit, matching the source's
  assumption that `create_dir_all` has no recoverable failure mode.
* `canonicalize` is the identity: the model has no symlinks and no working
  directory, so every computed path is already canonical, which agrees with
  the source's keep-the-raw-path fallback on canonicalization failure.
* A Rust `panic!` (process abort) is modelled as `Option.none`.
* `u32`/`usize` become `Nat`: the code does no wrapping arithmetic on them.
-/

/-- `Path::is_absolute` on Unix: the string begins with the separator. -/
def isAbs (s : String) : Bool :=
  match s.data with
  | [] => false
  | c :: _ => c == '/'

/-- Splits a character list at every `'/'`, keeping empty groups. -/
def splitSlash : List Char → List (List Char)
  | [] => [[]]
  | c :: cs =>
    if c = '/' then [] :: splitSlash cs
    else
      match splitSlash cs with
      | [] => [[c]]
      | g :: gs => (c :: g) :: gs

/-- The non-empty slash-separated components of a path string, as produced
by `Path::components` on Unix. -/
def components (s : String) : List String :=
  ((splitSlash s.data).filter (fun g => !g.isEmpty)).map (fun g => ⟨g⟩)

/-- Rust `PathBuf`, reduced to its Unix essentials. -/
structure PathBuf where
  absolute : Bool
  comps : List String
deriving DecidableEq

/-- `PathBuf::new()`. -/
def PathBuf.empty : PathBuf := ⟨false, []⟩

/-- `PathBuf::push`: an absolute argument replaces the whole path, a
relative one appends its components. -/
def PathBuf.push (p : PathBuf) (s : String) : PathBuf :=
  if isAbs s then ⟨true, components s⟩
  else ⟨p.absolute, p.comps ++ components s⟩

/-- `Path::new` applied to a whole string. -/
def pathOfString (s : String) : PathBuf := ⟨isAbs s, components s⟩

/-- `Path::file_stem` restricted to a single file-name component: the part
before the last `'.'`, except that a name without a dot, or whose only dot
leads (a hidden file such as `.cfg`), is its own stem. -/
def rustStem (s : String) : String :=
  match s.data.reverse.dropWhile (fun c => c != '.') with
  | [] => s
  | _ :: [] => s
  | _ :: rest => ⟨rest.reverse⟩

/-- The file name produced by `set_extension`: stem plus the new extension
(an empty extension just strips the old one). -/
def replaceExt (fname ext : String) : String :=
  if ext = "" then rustStem fname else rustStem fname ++ "." ++ ext

/-- `PathBuf::set_extension`: rewrites the extension of the final
component; a path with no file name is left unchanged (Rust returns
`false` there). Extension strings are assumed separator-free, as they are
everywhere in this repository's configurations. -/
def PathBuf.setExt (p : PathBuf) (ext : String) : PathBuf :=
  match p.comps.getLast? with
  | none => p
  | some fname => ⟨p.absolute, p.comps.dropLast ++ [replaceExt fname ext]⟩

/-- The filesystem: paths with file contents, newest entry first. -/
abbrev FS := List (PathBuf × String)

/-- Content of the file at `p`, if it exists. -/
def FS.lookup : FS → PathBuf → Option String
  | [], _ => none
  | (q, c) :: rest, p => if q = p then some c else FS.lookup rest p

/-- Creating or truncating a file: shadow any previous entry. -/
def FS.write (fs : FS) (p : PathBuf) (c : String) : FS := (p, c) :: fs

/-- `Path::exists` for files. -/
def FS.pathExists (fs : FS) (p : PathBuf) : Bool := (fs.lookup p).isSome

/-- Contents written by `initialize_file`: the header line when present
(`writeln!` appends a newline), nothing otherwise. -/
def fileContent : Option String → String
  | some h => h ++ "\n"
  | none => ""

/-- `FileManager`: a single output file (or numbered family) and its
configuration. Field names follow the source. -/
structure FileManager where
  header : Option String
  project_path : Option String
  output_path : Option String
  name : Option String
  extension : Option String
  series : Option (Nat × Nat)
  path : Option PathBuf
  writable : Bool
deriving DecidableEq

/-- `FileManager::default()`: every field unset, not writable. -/
def FileManager.default : FileManager :=
  ⟨none, none, none, none, none, none, none, false⟩

/-- `FileManager::initialized`. -/
def FileManager.initialized (f : FileManager) : Bool := f.path.isSome

/-- `FileManager::set_header`. -/
def FileManager.set_header (f : FileManager) (header : String) : FileManager :=
  if !f.initialized && f.header.isNone then { f with header := some header }
  else f

/-- `FileManager::set_project_path`. -/
def FileManager.set_project_path (f : FileManager) (project_path : String) :
    FileManager :=
  if !f.initialized && f.project_path.isNone then
    { f with project_path := some project_path }
  else f

/-- `FileManager::set_output_path`. -/
def FileManager.set_output_path (f : FileManager) (output_path : String) :
    FileManager :=
  if !f.initialized && f.output_path.isNone then
    { f with output_path := some output_path }
  else f

/-- `FileManager::set_file_name`. -/
def FileManager.set_file_name (f : FileManager) (name : String) : FileManager :=
  if !f.initialized && f.name.isNone then { f with name := some name }
  else f

/-- `FileManager::set_extension`. -/
def FileManager.set_extension (f : FileManager) (extension : String) :
    FileManager :=
  if !f.initialized && f.extension.isNone then
    { f with extension := some extension }
  else f

/-- `FileManager::set_series`: stores the count with current index `0`. -/
def FileManager.set_series (f : FileManager) (n_files : Nat) : FileManager :=
  if !f.initialized && f.series.isNone then
    { f with series := some (n_files, 0) }
  else f

/-- `FileManager::calculate_path`: requires all four identity fields; for a
series the current index is appended to the base name as `name_<index>`.
The final best-effort canonicalization is the identity here. -/
def FileManager.calculate_path (f : FileManager) : Option PathBuf :=
  match f.project_path, f.output_path, f.name, f.extension with
  | some project_path, some output_path, some nm, some ext =>
    let p0 := (PathBuf.empty.push project_path).push output_path
    let file_name :=
      match f.series with
      | some (_, index) => nm ++ "_" ++ Nat.repr index
      | none => nm
    some ((p0.push file_name).setExt ext)
  | _, _, _, _ => none

/-- `FileManager::set_path`. -/
def FileManager.set_path (f : FileManager) : FileManager :=
  { f with path := f.calculate_path }

/-- `FileManager::build`: resolve the path and return the descriptor. -/
def FileManager.build (f : FileManager) : FileManager := f.set_path

/-- `FileManager::change_project_path` (modifier: initialized only). -/
def FileManager.change_project_path (f : FileManager) (project_path : String) :
    FileManager :=
  if f.initialized then
    ({ f with project_path := some project_path }).set_path
  else f

/-- `FileManager::change_output_path`. -/
def FileManager.change_output_path (f : FileManager) (output_path : String) :
    FileManager :=
  if f.initialized then
    ({ f with output_path := some output_path }).set_path
  else f

/-- `FileManager::change_file_name`. -/
def FileManager.change_file_name (f : FileManager) (name : String) :
    FileManager :=
  if f.initialized then ({ f with name := some name }).set_path
  else f

/-- `FileManager::change_extension`. -/
def FileManager.change_extension (f : FileManager) (extension : String) :
    FileManager :=
  if f.initialized then ({ f with extension := some extension }).set_path
  else f

/-- `FileManager::change_file_index`: only for an initialized series
descriptor; stores the new index and re-resolves the path. -/
def FileManager.change_file_index (f : FileManager) (index : Nat) :
    FileManager :=
  if f.initialized then
    match f.series with
    | some (n_files, _) => ({ f with series := some (n_files, index) }).set_path
    | none => f
  else f

/-- `FileManager::change_write_permission`. -/
def FileManager.change_write_permission (f : FileManager) (writable : Bool) :
    FileManager :=
  { f with writable := writable }

/-- The series loop of `FileManager::initialize_output`: for each index,
`change_file_index`, `set_path`, then create that file. Accessing an
unresolvable path aborts (`none`). -/
def FileManager.initFiles : FileManager → FS → List Nat →
    Option (FileManager × FS)
  | f, fs, [] => some (f, fs)
  | f, fs, i :: rest =>
    let f1 := (f.change_file_index i).set_path
    match f1.path with
    | none => none
    | some p => FileManager.initFiles f1 (fs.write p (fileContent f1.header)) rest

/-- `FileManager::initialize_output`: ensure the path is resolved, ensure
the parent directory chain (implicit here; a path with no parent aborts),
create the file — or, for a series, all `count` files — then set
`writable` and re-canonicalize (identity). -/
def FileManager.initialize_output (f0 : FileManager) (fs : FS) :
    Option (FileManager × FS) :=
  let f := if f0.initialized then f0 else f0.set_path
  match f.path with
  | none => none
  | some p =>
    match p.comps with
    | [] => none
    | _ :: _ =>
      match f.series with
      | none =>
        some ({ f with writable := true }, fs.write p (fileContent f.header))
      | some (n, _) =>
        match f.initFiles fs (List.range n) with
        | none => none
        | some (f1, fs1) => some ({ f1 with writable := true }, fs1)

/-- The four collision policies of `OverwriteType`. -/
inductive OverwriteType where
  | Panic
  | Archive
  | Overwrite
  | Ignore
deriving DecidableEq

/-- `ProjectManager`: project root, default extension, collision policy. -/
structure ProjectManager where
  path : String
  extension : String
  overwrite_type : OverwriteType

/-- `ProjectManager::move_to_archive`: copy (never move) the colliding file
to `<archive_path>/<immediate-parent-dir-name>/<filename>`; a path with no
file name or no parent directory name aborts, as does a failing copy. -/
def move_to_archive (fs : FS) (file_path archive_path : PathBuf) :
    Option FS :=
  match file_path.comps.getLast? with
  | none => none
  | some filename =>
    match file_path.comps.dropLast.getLast? with
    | none => none
    | some relative_path =>
      match fs.lookup file_path with
      | none => none
      | some contents =>
        some (fs.write ((archive_path.push relative_path).push filename)
          contents)

/-- `ProjectManager::try_initialize_output`: apply the collision policy to
one descriptor. The only recoverable error is the `Panic`-policy
collision; every other failure aborts (`none`). -/
def ProjectManager.try_initialize_output (pm : ProjectManager) (fs : FS)
    (f : FileManager) : Option (Except String (FileManager × FS)) :=
  match pm.overwrite_type with
  | .Panic =>
    match f.path with
    | none => none
    | some p =>
      if fs.pathExists p then
        some (.error "Permission denied to overwrite existing output files.")
      else
        match f.initialize_output fs with
        | none => none
        | some r => some (.ok r)
  | .Archive =>
    match f.path with
    | none => none
    | some p =>
      let fs1? :=
        if fs.pathExists p then
          move_to_archive fs p ((pathOfString pm.path).push "archive")
        else some fs
      match fs1? with
      | none => none
      | some fs1 =>
        match f.initialize_output fs1 with
        | none => none
        | some r => some (.ok r)
  | .Overwrite =>
    match f.initialize_output fs with
    | none => none
    | some r => some (.ok r)
  | .Ignore =>
    match f.path with
    | none => none
    | some p =>
      if fs.pathExists p then
        some (.ok (f.change_write_permission false, fs))
      else
        match f.initialize_output fs with
        | none => none
        | some r => some (.ok r)

/-- `ProjectManager::initialize_output_files`: inject the shared project
path and default extension, resolve, then apply the policy, strictly in
order, stopping at the first error. Returns the aggregate result, the
final filesystem, and the final descriptor states (descriptors after a
short-circuit are returned unprocessed, as Rust leaves them unmutated). -/
def ProjectManager.initialize_output_files (pm : ProjectManager) :
    FS → List FileManager → Option (Except String Unit × FS × List FileManager)
  | fs, [] => some (.ok (), fs, [])
  | fs, f :: rest =>
    let f1 := ((f.set_project_path pm.path).set_extension pm.extension).set_path
    match pm.try_initialize_output fs f1 with
    | none => none
    | some (.error e) => some (.error e, fs, f1 :: rest)
    | some (.ok (f2, fs2)) =>
      match pm.initialize_output_files fs2 rest with
      | none => none
      | some (r, fs3, rest2) => some (r, fs3, f2 :: rest2)

/-! ## String and component lemmas -/

theorem str_data_append (a b : String) : (a ++ b).data = a.data ++ b.data := by
  cases a; cases b; rfl

theorem str_mk_data (s : String) : (⟨s.data⟩ : String) = s := by
  cases s; rfl

theorem str_ext {a b : String} (h : a.data = b.data) : a = b := by
  cases a; cases b; exact congrArg String.mk h

theorem str_data_ne_nil {a : String} (h : a ≠ "") : a.data ≠ [] := by
  intro hd
  exact h (str_ext (by simpa using hd))

theorem splitSlash_cons_slash (cs : List Char) :
    splitSlash ('/' :: cs) = [] :: splitSlash cs := by
  simp [splitSlash]

theorem splitSlash_cons_ne {c : Char} {cs g : List Char} {gs : List (List Char)}
    (hc : c ≠ '/') (h : splitSlash cs = g :: gs) :
    splitSlash (c :: cs) = (c :: g) :: gs := by
  simp [splitSlash, hc, h]

theorem splitSlash_ne_nil (l : List Char) : splitSlash l ≠ [] := by
  induction l with
  | nil => simp [splitSlash]
  | cons c cs ih =>
    by_cases hc : c = '/'
    · subst hc; rw [splitSlash_cons_slash]; simp
    · cases h : splitSlash cs with
      | nil => exact absurd h ih
      | cons g gs => rw [splitSlash_cons_ne hc h]; simp

theorem splitSlash_append (a b : List Char) :
    splitSlash (a ++ '/' :: b) = splitSlash a ++ splitSlash b := by
  induction a with
  | nil => rw [List.nil_append, splitSlash_cons_slash]; rfl
  | cons c cs ih =>
    by_cases hc : c = '/'
    · subst hc
      rw [List.cons_append, splitSlash_cons_slash, splitSlash_cons_slash, ih,
        List.cons_append]
    · cases h : splitSlash cs with
      | nil => exact absurd h (splitSlash_ne_nil cs)
      | cons g gs =>
        have h2 : splitSlash (cs ++ '/' :: b) = g :: (gs ++ splitSlash b) := by
          rw [ih, h, List.cons_append]
        rw [List.cons_append, splitSlash_cons_ne hc h2, splitSlash_cons_ne hc h,
          List.cons_append]

theorem splitSlash_no_slash (l : List Char) (h : '/' ∉ l) :
    splitSlash l = [l] := by
  induction l with
  | nil => rfl
  | cons c cs ih =>
    have hc : c ≠ '/' := fun e => h (e ▸ List.mem_cons_self c cs)
    have hcs : '/' ∉ cs := fun m => h (List.mem_cons_of_mem _ m)
    rw [splitSlash_cons_ne hc (ih hcs)]

theorem components_append (a b : String) :
    components (a ++ "/" ++ b) = components a ++ components b := by
  have hdata : (a ++ "/" ++ b).data = a.data ++ '/' :: b.data := by
    simp [str_data_append]
  unfold components
  rw [hdata, splitSlash_append, List.filter_append, List.map_append]

theorem components_single (s : String) (hs : s ≠ "") (h : '/' ∉ s.data) :
    components s = [s] := by
  unfold components
  rw [splitSlash_no_slash s.data h]
  have : (!s.data.isEmpty) = true := by
    cases hd : s.data with
    | nil => exact absurd hd (str_data_ne_nil hs)
    | cons c cs => rfl
  simp [List.filter, this, str_mk_data]

theorem components_empty : components "" = [] := by rfl

theorem isAbs_append (a b : String) (ha : a ≠ "") : isAbs (a ++ b) = isAbs a := by
  unfold isAbs
  rw [str_data_append]
  cases h : a.data with
  | nil => exact absurd h (str_data_ne_nil ha)
  | cons c cs => rfl

theorem isAbs_eq_false (s : String) (h : '/' ∉ s.data) : isAbs s = false := by
  unfold isAbs
  cases hd : s.data with
  | nil => rfl
  | cons c cs =>
    rw [hd] at h
    have : c ≠ '/' := fun e => h (e ▸ List.mem_cons_self c cs)
    simp [this]

theorem rustStem_no_dot (s : String) (h : '.' ∉ s.data) : rustStem s = s := by
  unfold rustStem
  have : s.data.reverse.dropWhile (fun c => c != '.') = [] := by
    rw [List.dropWhile_eq_nil_iff]
    intro c hc
    have : c ∈ s.data := List.mem_reverse.mp hc
    have hne : c ≠ '.' := fun e => h (e ▸ this)
    simpa using hne
  rw [this]

/-! ## Decimal representation lemmas

`calculate_path` embeds `Nat.repr index` into the file name, so we need:
every character of a decimal representation is a digit (hence neither a
separator nor a dot), and the representation is injective. -/

theorem digitChar_isDigit : ∀ m : Nat, m < 10 → (Nat.digitChar m).isDigit = true := by
  decide

theorem toDigitsCore_digits :
    ∀ (fuel n : Nat) (ds : List Char), (∀ c ∈ ds, c.isDigit = true) →
      ∀ c ∈ Nat.toDigitsCore 10 fuel n ds, c.isDigit = true := by
  intro fuel
  induction fuel with
  | zero => intro n ds hds; simpa [Nat.toDigitsCore] using hds
  | succ fuel ih =>
    intro n ds hds
    have hd : (Nat.digitChar (n % 10)).isDigit = true :=
      digitChar_isDigit _ (Nat.mod_lt _ (by omega))
    have hcons : ∀ c ∈ Nat.digitChar (n % 10) :: ds, c.isDigit = true := by
      intro c hc
      rcases List.mem_cons.mp hc with rfl | hmem
      · exact hd
      · exact hds c hmem
    simp only [Nat.toDigitsCore]
    split
    · exact hcons
    · exact ih (n / 10) _ hcons

theorem repr_data_digits (n : Nat) :
    ∀ c ∈ (Nat.repr n).data, c.isDigit = true := by
  have h : (Nat.repr n).data = Nat.toDigits 10 n := rfl
  rw [h]
  exact toDigitsCore_digits (n + 1) n [] (by intro c hc; cases hc)

theorem repr_no_slash (n : Nat) : '/' ∉ (Nat.repr n).data := by
  intro h
  exact absurd (repr_data_digits n '/' h) (by decide)

theorem repr_no_dot (n : Nat) : '.' ∉ (Nat.repr n).data := by
  intro h
  exact absurd (repr_data_digits n '.' h) (by decide)

theorem toDigitsCore_append (fuel : Nat) :
    ∀ (n : Nat) (ds : List Char),
      Nat.toDigitsCore 10 fuel n ds = Nat.toDigitsCore 10 fuel n [] ++ ds := by
  induction fuel with
  | zero => intro n ds; simp [Nat.toDigitsCore]
  | succ fuel ih =>
    intro n ds
    simp only [Nat.toDigitsCore]
    split
    · rfl
    · rw [ih (n / 10) (Nat.digitChar (n % 10) :: ds),
        ih (n / 10) [Nat.digitChar (n % 10)], List.append_assoc]
      rfl

/-- Decimal decoding, used only to invert `Nat.toDigits`. -/
def decodeDigits (l : List Char) : Nat :=
  l.foldl (fun a c => 10 * a + (c.toNat - 48)) 0

theorem digitChar_decode : ∀ m : Nat, m < 10 → (Nat.digitChar m).toNat - 48 = m := by
  decide

theorem decode_toDigitsCore :
    ∀ (fuel n : Nat), n < fuel →
      decodeDigits (Nat.toDigitsCore 10 fuel n []) = n := by
  intro fuel
  induction fuel with
  | zero => intro n h; omega
  | succ fuel ih =>
    intro n hn
    simp only [Nat.toDigitsCore]
    split
    · rename_i h0
      have h10 : n < 10 := by
        rcases Nat.lt_or_ge n 10 with h | h
        · exact h
        · exact absurd h0 (by
            have : 0 < n / 10 := Nat.div_pos h (by omega)
            omega)
      simp [decodeDigits, digitChar_decode n h10, Nat.mod_eq_of_lt h10]
    · rename_i h0
      have hpos : 0 < n := by
        by_contra h
        have : n = 0 := by omega
        subst this
        exact h0 rfl
      have hlt : n / 10 < fuel := by
        have := Nat.div_lt_self hpos (by omega : 1 < 10)
        omega
      rw [toDigitsCore_append fuel (n / 10) [Nat.digitChar (n % 10)]]
      have hdec : decodeDigits (Nat.toDigitsCore 10 fuel (n / 10) [] ++
          [Nat.digitChar (n % 10)]) =
          10 * decodeDigits (Nat.toDigitsCore 10 fuel (n / 10) []) +
            ((Nat.digitChar (n % 10)).toNat - 48) := by
        simp [decodeDigits, List.foldl_append]
      rw [hdec, ih (n / 10) hlt,
        digitChar_decode (n % 10) (Nat.mod_lt _ (by omega))]
      omega

theorem nat_repr_injective {m n : Nat} (h : Nat.repr m = Nat.repr n) : m = n := by
  have hdata : Nat.toDigits 10 m = Nat.toDigits 10 n := congrArg String.data h
  have hm := decode_toDigitsCore (m + 1) m (Nat.lt_succ_self m)
  have hn := decode_toDigitsCore (n + 1) n (Nat.lt_succ_self n)
  have : Nat.toDigits 10 m = Nat.toDigitsCore 10 (m + 1) m [] := rfl
  rw [this] at hdata
  have hn' : Nat.toDigits 10 n = Nat.toDigitsCore 10 (n + 1) n [] := rfl
  rw [hn'] at hdata
  calc m = decodeDigits (Nat.toDigitsCore 10 (m + 1) m []) := hm.symm
    _ = decodeDigits (Nat.toDigitsCore 10 (n + 1) n []) := by rw [hdata]
    _ = n := hn

/-! ## Filesystem and path-computation lemmas -/

theorem FS.lookup_write (fs : FS) (p q : PathBuf) (c : String) :
    (fs.write p c).lookup q = if p = q then some c else fs.lookup q := by
  simp only [FS.write, FS.lookup]

theorem str_ne_empty_of_data {s : String} (h : s.data ≠ []) : s ≠ "" := by
  intro hs
  subst hs
  exact h rfl

/-- A plain file-name component: non-empty, no separator, no dot. -/
def plainComp (s : String) : Prop :=
  s ≠ "" ∧ '/' ∉ s.data ∧ '.' ∉ s.data

theorem plainComp_series {nm : String} (i : Nat) (h : plainComp nm) :
    plainComp (nm ++ "_" ++ Nat.repr i) := by
  obtain ⟨hne, hs, hd⟩ := h
  have hdata : (nm ++ "_" ++ Nat.repr i).data
      = nm.data ++ '_' :: (Nat.repr i).data := by
    simp [str_data_append]
  refine ⟨str_ne_empty_of_data ?_, ?_, ?_⟩
  · rw [hdata]
    intro habs
    rcases List.append_eq_nil.mp habs with ⟨-, h2⟩
    exact List.cons_ne_nil _ _ h2
  · rw [hdata]
    intro habs
    rcases List.mem_append.mp habs with h1 | h2
    · exact hs h1
    · rcases List.mem_cons.mp h2 with h3 | h4
      · exact absurd h3 (by decide)
      · exact repr_no_slash i h4
  · rw [hdata]
    intro habs
    rcases List.mem_append.mp habs with h1 | h2
    · exact hd h1
    · rcases List.mem_cons.mp h2 with h3 | h4
      · exact absurd h3 (by decide)
      · exact repr_no_dot i h4

theorem replaceExt_no_dot {fname e : String} (hfd : '.' ∉ fname.data)
    (he : e ≠ "") : replaceExt fname e = fname ++ "." ++ e := by
  unfold replaceExt
  rw [if_neg he, rustStem_no_dot fname hfd]

theorem push_empty (s : String) :
    PathBuf.empty.push s = ⟨isAbs s, components s⟩ := by
  by_cases h : isAbs s <;> simp [PathBuf.push, PathBuf.empty, h]

theorem push_not_abs (p : PathBuf) {s : String} (h : isAbs s = false) :
    p.push s = ⟨p.absolute, p.comps ++ components s⟩ := by
  simp [PathBuf.push, h]

theorem push_chain_formula (proj outp fname e : String)
    (houtp : isAbs outp = false)
    (hf : fname ≠ "") (hfs : '/' ∉ fname.data) (hfd : '.' ∉ fname.data)
    (he : e ≠ "") :
    (((PathBuf.empty.push proj).push outp).push fname).setExt e
      = ⟨isAbs proj,
          components proj ++ (components outp ++ [fname ++ "." ++ e])⟩ := by
  rw [push_empty, push_not_abs _ houtp,
    push_not_abs _ (isAbs_eq_false fname hfs)]
  simp only
  rw [components_single fname hf hfs]
  have hlast : ((components proj ++ components outp) ++ [fname]).getLast?
      = some fname := List.getLast?_concat _
  simp only [PathBuf.setExt, List.append_assoc]
  rw [← List.append_assoc, hlast]
  simp only
  rw [List.dropLast_concat, replaceExt_no_dot hfd he, List.append_assoc]

/-- The effective file name that `calculate_path` pushes: the base name,
suffixed with the current index for a series descriptor. -/
def FileManager.effName (f : FileManager) (nm : String) : String :=
  match f.series with
  | some (_, index) => nm ++ "_" ++ Nat.repr index
  | none => nm

theorem effName_plain {f : FileManager} {nm : String} (h : plainComp nm) :
    plainComp (f.effName nm) := by
  unfold FileManager.effName
  cases f.series with
  | none => exact h
  | some s => exact plainComp_series s.2 h

/-- `calculate_path`, evaluated: for plain name and extension components
and a relative output path, the resolved path is
`<project>/<output>/<name>[_<index>].<extension>`. -/
theorem calculate_path_formula (f : FileManager) {proj outp nm e : String}
    (hproj : f.project_path = some proj) (houtp : f.output_path = some outp)
    (hnm : f.name = some nm) (he : f.extension = some e)
    (houtp_abs : isAbs outp = false)
    (hplain : plainComp nm) (hee : e ≠ "") :
    f.calculate_path = some ⟨isAbs proj,
      components proj ++ (components outp ++ [f.effName nm ++ "." ++ e])⟩ := by
  obtain ⟨h1, h2, h3⟩ := @effName_plain f nm hplain
  unfold FileManager.calculate_path
  rw [hproj, houtp, hnm, he]
  simp only
  rw [show (match f.series with
      | some (_, index) => nm ++ "_" ++ Nat.repr index
      | none => nm) = f.effName nm from rfl]
  rw [push_chain_formula proj outp (f.effName nm) e houtp_abs h1 h2 h3 hee]

/-! ## Descriptor lemmas -/

theorem calculate_path_congr {f g : FileManager}
    (h1 : f.project_path = g.project_path) (h2 : f.output_path = g.output_path)
    (h3 : f.name = g.name) (h4 : f.extension = g.extension)
    (h5 : f.series = g.series) :
    f.calculate_path = g.calculate_path := by
  unfold FileManager.calculate_path
  rw [h1, h2, h3, h4, h5]

theorem set_path_idem (f : FileManager) : f.set_path.set_path = f.set_path := by
  unfold FileManager.set_path
  have h : ({ f with path := f.calculate_path }).calculate_path
      = f.calculate_path := calculate_path_congr rfl rfl rfl rfl rfl
  rw [h]

theorem change_file_index_eq {f : FileManager} {n j : Nat} (i : Nat)
    (hinit : f.initialized = true) (hser : f.series = some (n, j)) :
    f.change_file_index i = ({ f with series := some (n, i) }).set_path := by
  unfold FileManager.change_file_index
  rw [hinit, hser]
  simp

/-- The path that `calculate_path` would resolve once the series index is
forced to `i`. -/
def cpAt (f : FileManager) (n i : Nat) : Option PathBuf :=
  ({ f with series := some (n, i) }).calculate_path

theorem cpAt_congr {f g : FileManager} (n : Nat)
    (h1 : f.project_path = g.project_path) (h2 : f.output_path = g.output_path)
    (h3 : f.name = g.name) (h4 : f.extension = g.extension) :
    ∀ i, cpAt f n i = cpAt g n i := by
  intro i
  unfold cpAt
  exact calculate_path_congr h1 h2 h3 h4 rfl

/-- Unfolding of the series loop body. -/
theorem initFiles_cons (f : FileManager) (fs : FS) (i : Nat) (rest : List Nat) :
    FileManager.initFiles f fs (i :: rest)
      = match ((f.change_file_index i).set_path).path with
        | none => none
        | some p =>
          FileManager.initFiles ((f.change_file_index i).set_path)
            (fs.write p (fileContent ((f.change_file_index i).set_path).header))
            rest := rfl

/-- Behaviour of one pass of the series loop (`initialize_output`, series
branch): identity fields are preserved; after a non-empty pass the stored
index is the last listed index with the path re-resolved in sync; every
listed index's file holds exactly the header content; no other path
changes. -/
theorem initFiles_spec :
    ∀ (l : List Nat) (f : FileManager) (fs : FS) (f' : FileManager) (fs' : FS)
      (n j : Nat),
      f.path.isSome = true → f.series = some (n, j) →
      FileManager.initFiles f fs l = some (f', fs') →
      (f'.header = f.header ∧ f'.project_path = f.project_path ∧
        f'.output_path = f.output_path ∧ f'.name = f.name ∧
        f'.extension = f.extension) ∧
      (l = [] → f' = f ∧ fs' = fs) ∧
      (∀ last, l.getLast? = some last →
        f'.series = some (n, last) ∧ f'.path = f'.calculate_path ∧
        f'.path.isSome = true) ∧
      (∀ i ∈ l, ∃ p, cpAt f n i = some p ∧
        fs'.lookup p = some (fileContent f.header)) ∧
      (∀ q, (∀ i ∈ l, cpAt f n i ≠ some q) → fs'.lookup q = fs.lookup q) := by
  intro l
  induction l with
  | nil =>
    intro f fs f' fs' n j hinit hser hrun
    simp only [FileManager.initFiles, Option.some.injEq, Prod.mk.injEq] at hrun
    obtain ⟨hf, hfs⟩ := hrun
    subst hf; subst hfs
    refine ⟨⟨rfl, rfl, rfl, rfl, rfl⟩, fun _ => ⟨rfl, rfl⟩, ?_, ?_, ?_⟩
    · intro last hlast; cases hlast
    · intro i hi; cases hi
    · intro q _; rfl
  | cons i rest ih =>
    intro f fs f' fs' n j hinit hser hrun
    have hstep : (f.change_file_index i).set_path
        = ({ f with series := some (n, i) }).set_path := by
      rw [change_file_index_eq i hinit hser, set_path_idem]
    have hscrut : (({ f with series := some (n, i) }).set_path).path
        = cpAt f n i := rfl
    have hcalc : (({ f with series := some (n, i) }).set_path).calculate_path
        = cpAt f n i := calculate_path_congr rfl rfl rfl rfl rfl
    rw [initFiles_cons, hstep, hscrut] at hrun
    cases hp : cpAt f n i with
    | none => rw [hp] at hrun; cases hrun
    | some p =>
      rw [hp] at hrun
      have hp1 : (({ f with series := some (n, i) }).set_path).path.isSome
          = true := by rw [hscrut, hp]; rfl
      have hIH := ih (({ f with series := some (n, i) }).set_path)
        (fs.write p (fileContent f.header)) f' fs' n i hp1 rfl hrun
      obtain ⟨⟨e1, e2, e3, e4, e5⟩, hnil, hlastP, hcov, hframe⟩ := hIH
      have hcpeq : ∀ k,
          cpAt (({ f with series := some (n, i) }).set_path) n k
            = cpAt f n k := fun k => cpAt_congr n rfl rfl rfl rfl k
      refine ⟨⟨e1, e2, e3, e4, e5⟩, ?_, ?_, ?_, ?_⟩
      · intro h; cases h
      · intro last hlast
        cases rest with
        | nil =>
          have hil : i = last := by simpa using hlast
          subst hil
          obtain ⟨hf', hfs'⟩ := hnil rfl
          subst hf'
          refine ⟨rfl, ?_, ?_⟩
          · rw [hscrut, hcalc]
          · rw [hscrut, hp]; rfl
        | cons r rs =>
          have hlast2 : (r :: rs).getLast? = some last := by
            rw [← List.getLast?_cons_cons]; exact hlast
          exact hlastP last hlast2
      · intro k hk
        rcases List.mem_cons.mp hk with hki | hkr
        · rw [hki]
          refine ⟨p, hp, ?_⟩
          by_cases hex : ∃ k2 ∈ rest, cpAt f n k2 = some p
          · obtain ⟨k2, hk2, hpk2⟩ := hex
            obtain ⟨p2, hp2, hl2⟩ := hcov k2 hk2
            rw [hcpeq k2, hpk2] at hp2
            cases hp2
            exact hl2
          · push_neg at hex
            have hfr : ∀ k2 ∈ rest,
                cpAt (({ f with series := some (n, i) }).set_path) n k2
                  ≠ some p := by
              intro k2 hk2
              rw [hcpeq k2]
              exact hex k2 hk2
            rw [hframe p hfr, FS.lookup_write, if_pos rfl]
        · obtain ⟨p2, hp2, hl2⟩ := hcov k hkr
          rw [hcpeq k] at hp2
          exact ⟨p2, hp2, hl2⟩
      · intro q hq
        have hqi : cpAt f n i ≠ some q := hq i (List.mem_cons_self i rest)
        have hpq : p ≠ q := by
          intro h; subst h; exact hqi hp
        have hqr : ∀ k ∈ rest,
            cpAt (({ f with series := some (n, i) }).set_path) n k
              ≠ some q := by
          intro k hk
          rw [hcpeq k]
          exact hq k (List.mem_cons_of_mem i hk)
        rw [hframe q hqr, FS.lookup_write, if_neg hpq]

theorem initialized_of_path {f : FileManager} {p : PathBuf}
    (h : f.path = some p) : f.initialized = true := by
  rw [FileManager.initialized, h]; rfl

/-- `initialize_output` on an already-resolved non-series descriptor:
create/truncate the single file and mark it writable. -/
theorem initialize_output_nonseries {f : FileManager} {fs : FS} {p : PathBuf}
    (hpath : f.path = some p) (hser : f.series = none) (hne : p.comps ≠ []) :
    f.initialize_output fs
      = some ({ f with writable := true }, fs.write p (fileContent f.header)) := by
  cases hcomps : p.comps with
  | nil => exact absurd hcomps hne
  | cons a l =>
    simp only [FileManager.initialize_output, initialized_of_path hpath,
      if_true, hpath, hser, hcomps]

/-- `initialize_output` on an already-resolved series descriptor reduces to
the series loop over `0..n`, plus the final `writable := true`. -/
theorem initialize_output_series {f : FileManager} {fs : FS} {p : PathBuf}
    {n j : Nat} {f' : FileManager} {fs' : FS}
    (hpath : f.path = some p) (hser : f.series = some (n, j))
    (hrun : f.initialize_output fs = some (f', fs')) :
    ∃ f1 fs1, FileManager.initFiles f fs (List.range n) = some (f1, fs1) ∧
      f' = { f1 with writable := true } ∧ fs' = fs1 := by
  cases hcomps : p.comps with
  | nil =>
    simp only [FileManager.initialize_output, initialized_of_path hpath,
      if_true, hpath, hcomps] at hrun
    cases hrun
  | cons a l =>
    simp only [FileManager.initialize_output, initialized_of_path hpath,
      if_true, hpath, hser, hcomps] at hrun
    cases hloop : FileManager.initFiles f fs (List.range n) with
    | none => rw [hloop] at hrun; cases hrun
    | some r =>
      rw [hloop] at hrun
      obtain ⟨f1, fs1⟩ := r
      simp only [Option.some.injEq, Prod.mk.injEq] at hrun
      exact ⟨f1, fs1, rfl, hrun.1.symm, hrun.2.symm⟩

theorem range_getLast (n : Nat) (h : 0 < n) :
    (List.range n).getLast? = some (n - 1) := by
  cases n with
  | zero => omega
  | succ m => rw [List.range_succ, List.getLast?_concat]; simp

/-! ## Claims -/

/-- **C9.** `change_write_permission b` unconditionally sets `writable` to
`b` in every descriptor state and changes nothing else; in particular it
works on an unresolved descriptor whose backing file was never created, so
`writable` can become `true` without any file creation. -/
theorem c9_change_write_permission_unconditional :
    ∀ (f : FileManager) (b : Bool),
      f.change_write_permission b = { f with writable := b } ∧
      (f.change_write_permission b).writable = b := by
  intro f b
  exact ⟨rfl, rfl⟩

/-- **C7.** Every identity setter (`set_header`, `set_project_path`,
`set_output_path`, `set_file_name`, `set_extension`, `set_series`) stores
its value exactly when the descriptor is not initialized and the field is
still unset; in every other case the returned descriptor is completely
unchanged (silent no-op, first-write-wins). -/
theorem c7_setters_first_write_wins :
    ∀ (f : FileManager) (v : String) (k : Nat),
      (f.initialized = false ∧ f.header = none →
        f.set_header v = { f with header := some v }) ∧
      (f.initialized = true ∨ f.header ≠ none → f.set_header v = f) ∧
      (f.initialized = false ∧ f.project_path = none →
        f.set_project_path v = { f with project_path := some v }) ∧
      (f.initialized = true ∨ f.project_path ≠ none →
        f.set_project_path v = f) ∧
      (f.initialized = false ∧ f.output_path = none →
        f.set_output_path v = { f with output_path := some v }) ∧
      (f.initialized = true ∨ f.output_path ≠ none →
        f.set_output_path v = f) ∧
      (f.initialized = false ∧ f.name = none →
        f.set_file_name v = { f with name := some v }) ∧
      (f.initialized = true ∨ f.name ≠ none → f.set_file_name v = f) ∧
      (f.initialized = false ∧ f.extension = none →
        f.set_extension v = { f with extension := some v }) ∧
      (f.initialized = true ∨ f.extension ≠ none → f.set_extension v = f) ∧
      (f.initialized = false ∧ f.series = none →
        f.set_series k = { f with series := some (k, 0) }) ∧
      (f.initialized = true ∨ f.series ≠ none → f.set_series k = f) := by
  intro f v k
  refine ⟨?_, ?_, ?_, ?_, ?_, ?_, ?_, ?_, ?_, ?_, ?_, ?_⟩
  · rintro ⟨h1, h2⟩; simp [FileManager.set_header, h1, h2]
  · rintro (h | h)
    · simp [FileManager.set_header, h]
    · cases hh : f.header with
      | none => exact absurd hh h
      | some x => simp [FileManager.set_header, hh]
  · rintro ⟨h1, h2⟩; simp [FileManager.set_project_path, h1, h2]
  · rintro (h | h)
    · simp [FileManager.set_project_path, h]
    · cases hh : f.project_path with
      | none => exact absurd hh h
      | some x => simp [FileManager.set_project_path, hh]
  · rintro ⟨h1, h2⟩; simp [FileManager.set_output_path, h1, h2]
  · rintro (h | h)
    · simp [FileManager.set_output_path, h]
    · cases hh : f.output_path with
      | none => exact absurd hh h
      | some x => simp [FileManager.set_output_path, hh]
  · rintro ⟨h1, h2⟩; simp [FileManager.set_file_name, h1, h2]
  · rintro (h | h)
    · simp [FileManager.set_file_name, h]
    · cases hh : f.name with
      | none => exact absurd hh h
      | some x => simp [FileManager.set_file_name, hh]
  · rintro ⟨h1, h2⟩; simp [FileManager.set_extension, h1, h2]
  · rintro (h | h)
    · simp [FileManager.set_extension, h]
    · cases hh : f.extension with
      | none => exact absurd hh h
      | some x => simp [FileManager.set_extension, hh]
  · rintro ⟨h1, h2⟩; simp [FileManager.set_series, h1, h2]
  · rintro (h | h)
    · simp [FileManager.set_series, h]
    · cases hh : f.series with
      | none => exact absurd hh h
      | some x => simp [FileManager.set_series, hh]

/-- Witness for C7: on a fresh descriptor `set_header` stores the value;
on a descriptor whose header is already set it is a no-op. -/
theorem c7_setters_first_write_wins_witness :
    FileManager.default.set_header "h"
      = { FileManager.default with header := some "h" } ∧
    ({ FileManager.default with header := some "h" } : FileManager).set_header
        "g" = { FileManager.default with header := some "h" } := by
  constructor
  · exact (c7_setters_first_write_wins FileManager.default "h" 0).1
      ⟨rfl, rfl⟩
  · exact (c7_setters_first_write_wins
      { FileManager.default with header := some "h" } "g" 0).2.1
      (Or.inr (by decide))

/-- **C10.** On an initialized series descriptor, `change_file_index i`
performs no bound check against the series count: it stores any `i`
(including `i ≥ n`) and re-resolves the path, which — for plain name and
extension components — becomes the `name_<i>` variant, outside the
materialized range when `i ≥ n`. -/
theorem c10_change_file_index_unchecked :
    ∀ (f : FileManager) (n j i : Nat) (proj outp nm e : String),
      f.path.isSome = true → f.series = some (n, j) →
      f.project_path = some proj → f.output_path = some outp →
      f.name = some nm → f.extension = some e →
      isAbs outp = false → plainComp nm → e ≠ "" →
      (f.change_file_index i).series = some (n, i) ∧
      (f.change_file_index i).path = some ⟨isAbs proj,
        components proj ++ (components outp
          ++ [nm ++ "_" ++ Nat.repr i ++ "." ++ e])⟩ := by
  intro f n j i proj outp nm e hinit hser hproj houtp hnm he habs hplain hee
  rw [change_file_index_eq i hinit hser]
  refine ⟨rfl, ?_⟩
  show ({ f with series := some (n, i) }).calculate_path = _
  exact calculate_path_formula _ hproj houtp hnm he habs hplain hee

/-- Witness for C10: a two-file series accepts index 5 and re-resolves to
`f_5.dat`. -/
theorem c10_change_file_index_unchecked_witness :
    (FileManager.change_file_index
      { FileManager.default with
          project_path := some "p", output_path := some "o",
          name := some "f", extension := some "dat",
          series := some (2, 0),
          path := some ⟨false, ["p", "o", "f_0.dat"]⟩ } 5).series
        = some (2, 5) ∧
    (FileManager.change_file_index
      { FileManager.default with
          project_path := some "p", output_path := some "o",
          name := some "f", extension := some "dat",
          series := some (2, 0),
          path := some ⟨false, ["p", "o", "f_0.dat"]⟩ } 5).path
        = some ⟨false, ["p", "o", "f_5.dat"]⟩ := by
  have h := c10_change_file_index_unchecked
    { FileManager.default with
        project_path := some "p", output_path := some "o",
        name := some "f", extension := some "dat",
        series := some (2, 0),
        path := some ⟨false, ["p", "o", "f_0.dat"]⟩ }
    2 0 5 "p" "o" "f" "dat" rfl rfl rfl rfl rfl rfl (by decide)
    (by refine ⟨by decide, by decide, by decide⟩) (by decide)
  exact ⟨h.1, h.2.trans (by decide)⟩

/-- **C6.** Ignore policy: when the resolved path exists the filesystem is
returned byte-for-byte untouched and the descriptor is merely marked
non-writable (`writable()` is `false` afterwards); when the path is absent
the file is materialized normally (exactly `initialize_output`). -/
theorem c6_ignore_policy (pm : ProjectManager) (fs : FS) (f : FileManager)
    (p : PathBuf) (hpol : pm.overwrite_type = OverwriteType.Ignore)
    (hpath : f.path = some p) :
    (fs.pathExists p = true →
      pm.try_initialize_output fs f
        = some (.ok (f.change_write_permission false, fs)) ∧
      (f.change_write_permission false).writable = false) ∧
    (fs.pathExists p = false →
      pm.try_initialize_output fs f
        = Option.map Except.ok (f.initialize_output fs)) := by
  constructor
  · intro hex
    refine ⟨?_, rfl⟩
    simp [ProjectManager.try_initialize_output, hpol, hpath, hex]
  · intro hnex
    simp only [ProjectManager.try_initialize_output, hpol, hpath, hnex,
      Bool.false_eq_true, if_false]
    cases h : f.initialize_output fs <;> simp [h]

/-- Witness for C6: a collision under Ignore leaves the one-file
filesystem unchanged and clears `writable`. -/
theorem c6_ignore_policy_witness :
    ProjectManager.try_initialize_output ⟨"r", "dat", OverwriteType.Ignore⟩
        [(⟨false, ["r", "o", "a.dat"]⟩, "x")]
        { FileManager.default with path := some ⟨false, ["r", "o", "a.dat"]⟩ }
      = some (.ok
          (FileManager.change_write_permission
            { FileManager.default with
                path := some ⟨false, ["r", "o", "a.dat"]⟩ } false,
          [(⟨false, ["r", "o", "a.dat"]⟩, "x")])) ∧
    (FileManager.change_write_permission
      { FileManager.default with
          path := some ⟨false, ["r", "o", "a.dat"]⟩ } false).writable
        = false := by
  exact (c6_ignore_policy ⟨"r", "dat", OverwriteType.Ignore⟩
    [(⟨false, ["r", "o", "a.dat"]⟩, "x")]
    { FileManager.default with path := some ⟨false, ["r", "o", "a.dat"]⟩ }
    ⟨false, ["r", "o", "a.dat"]⟩ rfl rfl).1 (by decide)

/-! ## Resolution gating (C3) -/

/-- All four identity fields are set. -/
def allSet (f : FileManager) : Prop :=
  f.project_path.isSome = true ∧ f.output_path.isSome = true ∧
  f.name.isSome = true ∧ f.extension.isSome = true

theorem calc_path_isSome (f : FileManager) :
    (f.calculate_path).isSome = (f.project_path.isSome && f.output_path.isSome
      && f.name.isSome && f.extension.isSome) := by
  obtain ⟨h, pp, op, nm, ex, se, pa, w⟩ := f
  cases pp <;> cases op <;> cases nm <;> cases ex <;> rfl

theorem fields_of_resolved {f : FileManager}
    (h : (f.calculate_path).isSome = true) : allSet f := by
  rw [calc_path_isSome] at h
  simp only [Bool.and_eq_true] at h
  exact ⟨h.1.1.1, h.1.1.2, h.1.2, h.2⟩

/-- Descriptor states reachable through the public `FileManager` API.  The
batch initializer (`initialize_output_files`) only composes these
operations (the private `set_path` is reached through `build`), so every
descriptor it produces is reachable too. -/
inductive Reachable : FileManager → Prop where
  | dflt : Reachable FileManager.default
  | set_header {f : FileManager} (v : String) :
      Reachable f → Reachable (f.set_header v)
  | set_project_path {f : FileManager} (v : String) :
      Reachable f → Reachable (f.set_project_path v)
  | set_output_path {f : FileManager} (v : String) :
      Reachable f → Reachable (f.set_output_path v)
  | set_file_name {f : FileManager} (v : String) :
      Reachable f → Reachable (f.set_file_name v)
  | set_extension {f : FileManager} (v : String) :
      Reachable f → Reachable (f.set_extension v)
  | set_series {f : FileManager} (k : Nat) :
      Reachable f → Reachable (f.set_series k)
  | build {f : FileManager} : Reachable f → Reachable f.build
  | change_project_path {f : FileManager} (v : String) :
      Reachable f → Reachable (f.change_project_path v)
  | change_output_path {f : FileManager} (v : String) :
      Reachable f → Reachable (f.change_output_path v)
  | change_file_name {f : FileManager} (v : String) :
      Reachable f → Reachable (f.change_file_name v)
  | change_extension {f : FileManager} (v : String) :
      Reachable f → Reachable (f.change_extension v)
  | change_file_index {f : FileManager} (i : Nat) :
      Reachable f → Reachable (f.change_file_index i)
  | change_write_permission {f : FileManager} (b : Bool) :
      Reachable f → Reachable (f.change_write_permission b)
  | init {f f' : FileManager} {fs fs' : FS} :
      Reachable f → f.initialize_output fs = some (f', fs') → Reachable f'

/-- Any successful `initialize_output` leaves all four identity fields
set, provided the input descriptor already satisfied the invariant
"resolved path implies fields set". -/
theorem initialize_output_resolved_fields {f f' : FileManager} {fs fs' : FS}
    (hrun : f.initialize_output fs = some (f', fs'))
    (hf : f.path.isSome = true → allSet f) : allSet f' := by
  set g := if f.initialized = true then f else f.set_path with hg
  have hrun' : (match g.path with
      | none => none
      | some p =>
        match p.comps with
        | [] => none
        | _ :: _ =>
          match g.series with
          | none =>
            some ({ g with writable := true }, fs.write p (fileContent g.header))
          | some (n, _) =>
            match g.initFiles fs (List.range n) with
            | none => none
            | some (f1, fs1) => some ({ f1 with writable := true }, fs1))
      = some (f', fs') := by
    simp only [FileManager.initialize_output] at hrun
    exact hrun
  have hgf : g.path.isSome = true → allSet g := by
    rw [hg]
    by_cases hc : f.initialized = true
    · rw [if_pos hc]; exact hf
    · rw [if_neg hc]
      intro h
      exact fields_of_resolved h
  cases hp : g.path with
  | none => simp only [hp] at hrun'; cases hrun'
  | some p =>
    simp only [hp] at hrun'
    have hfields : allSet g := hgf (by rw [hp]; rfl)
    cases hcomp : p.comps with
    | nil => simp only [hcomp] at hrun'; cases hrun'
    | cons a l =>
      simp only [hcomp] at hrun'
      cases hs : g.series with
      | none =>
        simp only [hs, Option.some.injEq, Prod.mk.injEq] at hrun'
        obtain ⟨hf', -⟩ := hrun'
        rw [← hf']
        exact hfields
      | some pr =>
        obtain ⟨n, j⟩ := pr
        simp only [hs] at hrun'
        cases hloop : FileManager.initFiles g fs (List.range n) with
        | none => simp only [hloop] at hrun'; cases hrun'
        | some r =>
          obtain ⟨f1, fs1⟩ := r
          simp only [hloop, Option.some.injEq, Prod.mk.injEq] at hrun'
          obtain ⟨hf', -⟩ := hrun'
          have hspec := initFiles_spec (List.range n) g fs f1 fs1 n j
            (by rw [hp]; rfl) hs hloop
          obtain ⟨⟨-, e2, e3, e4, e5⟩, hnil, hlastP, -, -⟩ := hspec
          cases n with
          | zero =>
            obtain ⟨hq, -⟩ := hnil rfl
            rw [← hf', hq]
            exact hfields
          | succ m =>
            obtain ⟨-, hsync, hps⟩ := hlastP m
              (by have h := range_getLast (m + 1) (Nat.succ_pos m)
                  simpa using h)
            rw [hsync] at hps
            have hfld1 := fields_of_resolved hps
            rw [← hf']
            exact hfld1

/-- In every reachable descriptor state, a resolved path implies that all
four identity fields are set (the true direction of the C3 invariant). -/
theorem reachable_resolved_fields :
    ∀ f : FileManager, Reachable f → f.path.isSome = true → allSet f := by
  intro f hr
  induction hr with
  | dflt => intro h; cases h
  | set_header v hf ih =>
    rename_i f0
    by_cases hc : (!f0.initialized && f0.header.isNone) = true
    · rw [FileManager.set_header, if_pos hc]
      intro h
      exact ih h
    · rw [FileManager.set_header, if_neg hc]
      exact ih
  | set_project_path v hf ih =>
    rename_i f0
    by_cases hc : (!f0.initialized && f0.project_path.isNone) = true
    · rw [FileManager.set_project_path, if_pos hc]
      intro h
      obtain ⟨-, h2, h3, h4⟩ := ih h
      exact ⟨rfl, h2, h3, h4⟩
    · rw [FileManager.set_project_path, if_neg hc]
      exact ih
  | set_output_path v hf ih =>
    rename_i f0
    by_cases hc : (!f0.initialized && f0.output_path.isNone) = true
    · rw [FileManager.set_output_path, if_pos hc]
      intro h
      obtain ⟨h1, -, h3, h4⟩ := ih h
      exact ⟨h1, rfl, h3, h4⟩
    · rw [FileManager.set_output_path, if_neg hc]
      exact ih
  | set_file_name v hf ih =>
    rename_i f0
    by_cases hc : (!f0.initialized && f0.name.isNone) = true
    · rw [FileManager.set_file_name, if_pos hc]
      intro h
      obtain ⟨h1, h2, -, h4⟩ := ih h
      exact ⟨h1, h2, rfl, h4⟩
    · rw [FileManager.set_file_name, if_neg hc]
      exact ih
  | set_extension v hf ih =>
    rename_i f0
    by_cases hc : (!f0.initialized && f0.extension.isNone) = true
    · rw [FileManager.set_extension, if_pos hc]
      intro h
      obtain ⟨h1, h2, h3, -⟩ := ih h
      exact ⟨h1, h2, h3, rfl⟩
    · rw [FileManager.set_extension, if_neg hc]
      exact ih
  | set_series k hf ih =>
    rename_i f0
    by_cases hc : (!f0.initialized && f0.series.isNone) = true
    · rw [FileManager.set_series, if_pos hc]
      intro h
      exact ih h
    · rw [FileManager.set_series, if_neg hc]
      exact ih
  | build hf ih =>
    intro h
    exact fields_of_resolved h
  | change_project_path v hf ih =>
    rename_i f0
    by_cases hc : f0.initialized = true
    · rw [FileManager.change_project_path, if_pos hc]
      intro h
      exact fields_of_resolved h
    · rw [FileManager.change_project_path, if_neg hc]
      exact ih
  | change_output_path v hf ih =>
    rename_i f0
    by_cases hc : f0.initialized = true
    · rw [FileManager.change_output_path, if_pos hc]
      intro h
      exact fields_of_resolved h
    · rw [FileManager.change_output_path, if_neg hc]
      exact ih
  | change_file_name v hf ih =>
    rename_i f0
    by_cases hc : f0.initialized = true
    · rw [FileManager.change_file_name, if_pos hc]
      intro h
      exact fields_of_resolved h
    · rw [FileManager.change_file_name, if_neg hc]
      exact ih
  | change_extension v hf ih =>
    rename_i f0
    by_cases hc : f0.initialized = true
    · rw [FileManager.change_extension, if_pos hc]
      intro h
      exact fields_of_resolved h
    · rw [FileManager.change_extension, if_neg hc]
      exact ih
  | change_file_index i hf ih =>
    rename_i f0
    by_cases hc : f0.initialized = true
    · rw [FileManager.change_file_index, if_pos hc]
      cases hs : f0.series with
      | none => exact ih
      | some pr =>
        obtain ⟨n1, i1⟩ := pr
        intro h
        exact fields_of_resolved h
    · rw [FileManager.change_file_index, if_neg hc]
      exact ih
  | change_write_permission b hf ih =>
    intro h
    exact ih h
  | init hf hrun ih =>
    intro h
    exact initialize_output_resolved_fields hrun ih

/-- **C3 (counterexample).** The claimed invariant — in every reachable
state, `resolved_path` is `Some` iff all four identity fields are `Some` —
fails: setting all four fields through the public setters without ever
resolving (no `build`/`set_path` yet) reaches a state with every field set
but `path = none`. -/
theorem c3_counterexample :
    ¬ (∀ f : FileManager, Reachable f →
        (f.path.isSome = true ↔ (f.project_path.isSome = true ∧
          f.output_path.isSome = true ∧ f.name.isSome = true ∧
          f.extension.isSome = true))) := by
  intro h
  have hr : Reachable ((((FileManager.default.set_project_path
      "p").set_output_path "o").set_file_name "n").set_extension "e") :=
    .set_extension "e" (.set_file_name "n" (.set_output_path "o"
      (.set_project_path "p" .dflt)))
  have hbad := (h _ hr).mpr (by decide)
  exact absurd hbad (by decide)

/-- **C3 (amended).** Resolution gating holds at every resolution point,
not between builder-phase setter calls: (1) `calculate_path` returns
`Some` exactly when `project_path`, `output_path`, `name` and `extension`
are all `Some`; (2) hence immediately after any `set_path`/`build` the
stored `resolved_path` is `Some` iff all four fields are `Some`; (3) in
every reachable state the forward direction holds — a `Some`
`resolved_path` implies all four fields are `Some`.  (Before the first
resolution, a reachable state may have all four fields `Some` while
`resolved_path` is still `None`; see the counterexample.) -/
theorem c3_resolution_gating :
    (∀ f : FileManager, (f.calculate_path).isSome
      = (f.project_path.isSome && f.output_path.isSome && f.name.isSome &&
        f.extension.isSome)) ∧
    (∀ f : FileManager, (f.set_path).path.isSome
      = (f.project_path.isSome && f.output_path.isSome && f.name.isSome &&
        f.extension.isSome)) ∧
    (∀ f : FileManager, Reachable f → f.path.isSome = true → allSet f) := by
  refine ⟨calc_path_isSome, ?_, reachable_resolved_fields⟩
  intro f
  exact calc_path_isSome f

/-- Witness for C3 (amended): a fully-configured, built descriptor is
reachable, has a resolved path, and part (3) recovers all four fields. -/
theorem c3_resolution_gating_witness :
    allSet ((((FileManager.default.set_project_path "p").set_output_path
      "o").set_file_name "n").set_extension "e").build :=
  c3_resolution_gating.2.2 _
    (.build (.set_extension "e" (.set_file_name "n" (.set_output_path "o"
      (.set_project_path "p" .dflt)))))
    (by decide)

/-- **C8.** After a full `initialize_output` pass over a series descriptor
with count `n > 0`, the stored `current_index` is `n - 1`; the resolved
path is exactly the re-resolution under the current fields (so it reflects
the most recently materialized index); and the file at that path holds the
just-written header content. -/
theorem c8_series_index_tracks_materialization
    (f f' : FileManager) (fs fs' : FS) (n j : Nat)
    (hser : f.series = some (n, j)) (hn : 0 < n)
    (hrun : f.initialize_output fs = some (f', fs')) :
    f'.series = some (n, n - 1) ∧ f'.path = f'.calculate_path ∧
    ∃ p', f'.path = some p' ∧ fs'.lookup p' = some (fileContent f.header) := by
  set g := if f.initialized = true then f else f.set_path with hg
  have hrun' : (match g.path with
      | none => none
      | some p =>
        match p.comps with
        | [] => none
        | _ :: _ =>
          match g.series with
          | none =>
            some ({ g with writable := true }, fs.write p (fileContent g.header))
          | some (n, _) =>
            match g.initFiles fs (List.range n) with
            | none => none
            | some (f1, fs1) => some ({ f1 with writable := true }, fs1))
      = some (f', fs') := by
    simp only [FileManager.initialize_output] at hrun
    exact hrun
  have hgs : g.series = some (n, j) := by
    rw [hg]
    by_cases hc : f.initialized = true
    · rw [if_pos hc]; exact hser
    · rw [if_neg hc]; exact hser
  have hgh : g.header = f.header := by
    rw [hg]
    by_cases hc : f.initialized = true
    · rw [if_pos hc]
    · rw [if_neg hc]; rfl
  cases hp : g.path with
  | none => simp only [hp] at hrun'; cases hrun'
  | some p =>
    simp only [hp] at hrun'
    cases hcomp : p.comps with
    | nil => simp only [hcomp] at hrun'; cases hrun'
    | cons a l =>
      simp only [hcomp, hgs] at hrun'
      cases hloop : FileManager.initFiles g fs (List.range n) with
      | none => simp only [hloop] at hrun'; cases hrun'
      | some r =>
        obtain ⟨f1, fs1⟩ := r
        simp only [hloop, Option.some.injEq, Prod.mk.injEq] at hrun'
        obtain ⟨hf', hfs'⟩ := hrun'
        obtain ⟨⟨e1, e2, e3, e4, e5⟩, -, hlastP, hcov, -⟩ :=
          initFiles_spec (List.range n) g fs f1 fs1 n j
            (by rw [hp]; rfl) hgs hloop
        obtain ⟨hs1, hsync, -⟩ := hlastP (n - 1) (range_getLast n hn)
        obtain ⟨q, hcp, hlook⟩ := hcov (n - 1)
          (List.mem_range.mpr (by omega))
        have hcalc1 : f1.calculate_path = cpAt g n (n - 1) :=
          calculate_path_congr e2 e3 e4 e5 hs1
        refine ⟨?_, ?_, ?_⟩
        · rw [← hf']; exact hs1
        · rw [← hf']
          show f1.path = ({ f1 with writable := true }).calculate_path
          rw [hsync]
          exact calculate_path_congr rfl rfl rfl rfl rfl
        · refine ⟨q, ?_, ?_⟩
          · rw [← hf']
            show f1.path = some q
            rw [hsync, hcalc1]
            exact hcp
          · rw [← hfs', ← hgh]
            exact hlook

/-- Witness for C8: a two-file series run ends with index 1, a path in
sync (`f_1.dat`), and that file freshly (re)written. -/
theorem c8_series_index_tracks_materialization_witness :
    ∃ p', ({ FileManager.default with
              project_path := some "p",
              output_path := some "o", name := some "f",
              extension := some "dat",
              series := some (2, 1),
              path := some ⟨false, ["p", "o", "f_1.dat"]⟩,
              writable := true } : FileManager).path = some p' ∧
      FS.lookup [(⟨false, ["p", "o", "f_1.dat"]⟩, ""),
        (⟨false, ["p", "o", "f_0.dat"]⟩, "")] p' = some "" := by
  have h := c8_series_index_tracks_materialization
    { FileManager.default with
        project_path := some "p",
        output_path := some "o", name := some "f", extension := some "dat",
        series := some (2, 0), path := some ⟨false, ["p", "o", "f_0.dat"]⟩ }
    { FileManager.default with
        project_path := some "p",
        output_path := some "o", name := some "f", extension := some "dat",
        series := some (2, 1), path := some ⟨false, ["p", "o", "f_1.dat"]⟩,
        writable := true }
    [] [(⟨false, ["p", "o", "f_1.dat"]⟩, ""),
      (⟨false, ["p", "o", "f_0.dat"]⟩, "")]
    2 0 rfl (by omega) (by decide)
  exact h.2.2

/-! ## Series file-name arithmetic (C5) -/

theorem append_dot_split :
    ∀ (x y t1 t2 : List Char), '.' ∉ x → '.' ∉ y →
      x ++ '.' :: t1 = y ++ '.' :: t2 → x = y ∧ t1 = t2 := by
  intro x
  induction x with
  | nil =>
    intro y t1 t2 hx hy h
    cases y with
    | nil =>
      refine ⟨rfl, ?_⟩
      simpa using h
    | cons b y2 =>
      simp only [List.nil_append, List.cons_append, List.cons.injEq] at h
      apply absurd _ hy
      rw [← h.1]
      exact List.mem_cons_self _ _
  | cons a x2 ih =>
    intro y t1 t2 hx hy h
    cases y with
    | nil =>
      simp only [List.cons_append, List.nil_append, List.cons.injEq] at h
      apply absurd _ hx
      rw [h.1]
      exact List.mem_cons_self _ _
    | cons b y2 =>
      simp only [List.cons_append, List.cons.injEq] at h
      obtain ⟨hab, hrest⟩ := h
      have hx2 : '.' ∉ x2 := fun m => hx (List.mem_cons_of_mem _ m)
      have hy2 : '.' ∉ y2 := fun m => hy (List.mem_cons_of_mem _ m)
      obtain ⟨h1, h2⟩ := ih y2 t1 t2 hx2 hy2 hrest
      exact ⟨by rw [hab, h1], h2⟩

theorem suffixed_string_inj (nm e : String) {i j : Nat}
    (h : nm ++ "_" ++ Nat.repr i ++ "." ++ e
      = nm ++ "_" ++ Nat.repr j ++ "." ++ e) : i = j := by
  have hd := congrArg String.data h
  have hu : ("_" : String).data = ['_'] := rfl
  have hdot : ("." : String).data = ['.'] := rfl
  simp only [str_data_append, hu, hdot, List.append_assoc, List.cons_append,
    List.nil_append] at hd
  have hd2 := List.append_cancel_left hd
  injection hd2 with hhead hd3
  obtain ⟨hrepr, -⟩ := append_dot_split _ _ _ _ (repr_no_dot i)
    (repr_no_dot j) hd3
  exact nat_repr_injective (str_ext hrepr)

theorem unsuffixed_ne_suffixed (nm e : String) (i : Nat) :
    nm ++ "." ++ e ≠ nm ++ "_" ++ Nat.repr i ++ "." ++ e := by
  intro h
  have hd := congrArg String.data h
  have hu : ("_" : String).data = ['_'] := rfl
  have hdot : ("." : String).data = ['.'] := rfl
  simp only [str_data_append, hu, hdot, List.append_assoc, List.cons_append,
    List.nil_append] at hd
  have hd2 := List.append_cancel_left hd
  injection hd2 with h1 h2
  exact absurd h1 (by decide)

/-- The path of the `i`-th file of a series descriptor with plain
components. -/
def seriesPath (proj outp nm e : String) (i : Nat) : PathBuf :=
  ⟨isAbs proj,
    components proj ++ (components outp ++ [nm ++ "_" ++ Nat.repr i ++ "." ++ e])⟩

/-- The path of the unsuffixed `name.ext` file (never produced by a series
descriptor). -/
def plainPath (proj outp nm e : String) : PathBuf :=
  ⟨isAbs proj, components proj ++ (components outp ++ [nm ++ "." ++ e])⟩

theorem seriesPath_inj (proj outp nm e : String) :
    Function.Injective (seriesPath proj outp nm e) := by
  intro i j h
  simp only [seriesPath, PathBuf.mk.injEq] at h
  obtain ⟨-, h2⟩ := h
  have h3 := List.append_cancel_left (List.append_cancel_left h2)
  simp only [List.cons.injEq, and_true] at h3
  exact suffixed_string_inj nm e h3

theorem plainPath_ne_seriesPath (proj outp nm e : String) (i : Nat) :
    plainPath proj outp nm e ≠ seriesPath proj outp nm e i := by
  intro h
  simp only [plainPath, seriesPath, PathBuf.mk.injEq] at h
  obtain ⟨-, h2⟩ := h
  have h3 := List.append_cancel_left (List.append_cancel_left h2)
  simp only [List.cons.injEq, and_true] at h3
  exact unsuffixed_ne_suffixed nm e i h3

/-- The path-ensuring step of `initialize_output` preserves every identity
field. -/
theorem ensure_fields (f : FileManager) :
    (if f.initialized = true then f else f.set_path).header = f.header ∧
    (if f.initialized = true then f else f.set_path).project_path
      = f.project_path ∧
    (if f.initialized = true then f else f.set_path).output_path
      = f.output_path ∧
    (if f.initialized = true then f else f.set_path).name = f.name ∧
    (if f.initialized = true then f else f.set_path).extension
      = f.extension ∧
    (if f.initialized = true then f else f.set_path).series = f.series := by
  by_cases hc : f.initialized = true
  · rw [if_pos hc]; exact ⟨rfl, rfl, rfl, rfl, rfl, rfl⟩
  · rw [if_neg hc]; exact ⟨rfl, rfl, rfl, rfl, rfl, rfl⟩

/-- **C5 (amended).** For a series descriptor with plain name/extension
components and a relative output path, a successful `initialize_output`
(1) creates/truncates the file `name_<i>.ext` for every `i < n` with
exactly the header content, (2) changes no other path — in particular (3)
the unsuffixed `name.ext` is never created or touched, so it exists
afterwards iff it existed before — and (4) the `n` series paths are
pairwise distinct. -/
theorem c5_series_materialization (f f' : FileManager) (fs fs' : FS)
    (n j : Nat) (proj outp nm e : String)
    (hproj : f.project_path = some proj) (houtp : f.output_path = some outp)
    (hnm : f.name = some nm) (he : f.extension = some e)
    (hser : f.series = some (n, j)) (habs : isAbs outp = false)
    (hpn : plainComp nm) (hpe : plainComp e)
    (hrun : f.initialize_output fs = some (f', fs')) :
    (∀ i, i < n → fs'.lookup (seriesPath proj outp nm e i)
      = some (fileContent f.header)) ∧
    (∀ q : PathBuf, (∀ i, i < n → q ≠ seriesPath proj outp nm e i) →
      fs'.lookup q = fs.lookup q) ∧
    fs'.lookup (plainPath proj outp nm e)
      = fs.lookup (plainPath proj outp nm e) ∧
    ((List.range n).map (seriesPath proj outp nm e)).Nodup := by
  set g := if f.initialized = true then f else f.set_path with hg
  have hrun' : (match g.path with
      | none => none
      | some p =>
        match p.comps with
        | [] => none
        | _ :: _ =>
          match g.series with
          | none =>
            some ({ g with writable := true }, fs.write p (fileContent g.header))
          | some (n, _) =>
            match g.initFiles fs (List.range n) with
            | none => none
            | some (f1, fs1) => some ({ f1 with writable := true }, fs1))
      = some (f', fs') := by
    simp only [FileManager.initialize_output] at hrun
    exact hrun
  have hpres := ensure_fields f
  rw [← hg] at hpres
  obtain ⟨hgh, hgp, hgo, hgn, hge, hgs⟩ := hpres
  have hgp' : g.project_path = some proj := hgp.trans hproj
  have hgo' : g.output_path = some outp := hgo.trans houtp
  have hgn' : g.name = some nm := hgn.trans hnm
  have hge' : g.extension = some e := hge.trans he
  have hgs' : g.series = some (n, j) := hgs.trans hser
  have hcp : ∀ i, cpAt g n i = some (seriesPath proj outp nm e i) := by
    intro i
    exact calculate_path_formula ({ g with series := some (n, i) })
      hgp' hgo' hgn' hge' habs hpn hpe.1
  cases hpth : g.path with
  | none => simp only [hpth] at hrun'; cases hrun'
  | some p =>
    simp only [hpth] at hrun'
    cases hcomp : p.comps with
    | nil => simp only [hcomp] at hrun'; cases hrun'
    | cons a l =>
      simp only [hcomp, hgs'] at hrun'
      cases hloop : FileManager.initFiles g fs (List.range n) with
      | none => simp only [hloop] at hrun'; cases hrun'
      | some r =>
        obtain ⟨f1, fs1⟩ := r
        simp only [hloop, Option.some.injEq, Prod.mk.injEq] at hrun'
        obtain ⟨hf', hfs'⟩ := hrun'
        obtain ⟨-, -, -, hcov, hframe⟩ :=
          initFiles_spec (List.range n) g fs f1 fs1 n j
            (by rw [hpth]; rfl) hgs' hloop
        have hframe' : ∀ q : PathBuf,
            (∀ i, i < n → q ≠ seriesPath proj outp nm e i) →
            fs1.lookup q = fs.lookup q := by
          intro q hq
          apply hframe
          intro i hi
          rw [hcp i]
          intro hx
          injection hx with hx2
          exact hq i (List.mem_range.mp hi) hx2.symm
        refine ⟨?_, ?_, ?_, ?_⟩
        · intro i hi
          obtain ⟨p2, hp2, hl⟩ := hcov i (List.mem_range.mpr hi)
          rw [hcp i] at hp2
          injection hp2 with hp3
          rw [← hfs', hp3]
          rw [hgh] at hl
          exact hl
        · intro q hq
          rw [← hfs']
          exact hframe' q hq
        · rw [← hfs']
          exact hframe' (plainPath proj outp nm e)
            (fun i _ => plainPath_ne_seriesPath proj outp nm e i)
        · exact List.Nodup.map (seriesPath_inj proj outp nm e)
            (List.nodup_range n)

/-- **C5 (counterexample).** The claim "no unsuffixed file `name.ext`
exists afterward" fails when `name.ext` already existed before the series
initialization: a two-file series over a filesystem holding `f.dat` leaves
`f.dat` (content `"z"`) in place while creating `f_0.dat` and `f_1.dat`. -/
theorem c5_counterexample :
    FileManager.initialize_output
        { FileManager.default with
            project_path := some "p", output_path := some "o",
            name := some "f", extension := some "dat",
            series := some (2, 0),
            path := some ⟨false, ["p", "o", "f_0.dat"]⟩ }
        [(⟨false, ["p", "o", "f.dat"]⟩, "z")]
      = some ({ FileManager.default with
            project_path := some "p", output_path := some "o",
            name := some "f", extension := some "dat",
            series := some (2, 1),
            path := some ⟨false, ["p", "o", "f_1.dat"]⟩,
            writable := true },
          [(⟨false, ["p", "o", "f_1.dat"]⟩, ""),
            (⟨false, ["p", "o", "f_0.dat"]⟩, ""),
            (⟨false, ["p", "o", "f.dat"]⟩, "z")]) ∧
    FS.pathExists
        [(⟨false, ["p", "o", "f_1.dat"]⟩, ""),
          (⟨false, ["p", "o", "f_0.dat"]⟩, ""),
          (⟨false, ["p", "o", "f.dat"]⟩, "z")]
        ⟨false, ["p", "o", "f.dat"]⟩ = true := by
  exact ⟨by decide, by decide⟩

/-- Witness for C5 (amended): on an empty filesystem the two-file series
produces `f_0.dat` with the (empty) header content, and the unsuffixed
`f.dat` stays absent. -/
theorem c5_series_materialization_witness :
    FS.lookup [(⟨false, ["p", "o", "f_1.dat"]⟩, ""),
        (⟨false, ["p", "o", "f_0.dat"]⟩, "")]
      (seriesPath "p" "o" "f" "dat" 0) = some "" ∧
    FS.lookup [(⟨false, ["p", "o", "f_1.dat"]⟩, ""),
        (⟨false, ["p", "o", "f_0.dat"]⟩, "")]
      (plainPath "p" "o" "f" "dat") = FS.lookup [] (plainPath "p" "o" "f" "dat") := by
  have h := c5_series_materialization
    { FileManager.default with
        project_path := some "p", output_path := some "o",
        name := some "f", extension := some "dat",
        series := some (2, 0), path := some ⟨false, ["p", "o", "f_0.dat"]⟩ }
    { FileManager.default with
        project_path := some "p", output_path := some "o",
        name := some "f", extension := some "dat",
        series := some (2, 1), path := some ⟨false, ["p", "o", "f_1.dat"]⟩,
        writable := true }
    [] [(⟨false, ["p", "o", "f_1.dat"]⟩, ""),
      (⟨false, ["p", "o", "f_0.dat"]⟩, "")]
    2 0 "p" "o" "f" "dat" rfl rfl rfl rfl rfl (by decide)
    (by refine ⟨by decide, by decide, by decide⟩)
    (by refine ⟨by decide, by decide, by decide⟩)
    (by decide)
  exact ⟨h.1 0 (by omega), h.2.2.1⟩

/-! ## Path determinism (C4) -/

theorem str_assoc (a b c : String) : a ++ b ++ c = a ++ (b ++ c) := by
  apply str_ext
  simp [str_data_append]

theorem str_append_ne_left {a : String} (b : String) (ha : a ≠ "") :
    a ++ b ≠ "" := by
  apply str_ne_empty_of_data
  rw [str_data_append]
  intro hx
  rcases List.append_eq_nil.mp hx with ⟨h1, -⟩
  exact str_data_ne_nil ha h1

/-- **C4 (counterexample).** A name containing a dot breaks the claimed
formula: `set_extension` replaces the apparent extension of the final
component, so name `"a.b"` with extension `"dat"` resolves to `p/o/a.dat`,
not `p/o/a.b.dat`. -/
theorem c4_counterexample :
    ({ FileManager.default with
        project_path := some "p", output_path := some "o",
        name := some "a.b",
        extension := some "dat" } : FileManager).calculate_path
      = some ⟨false, ["p", "o", "a.dat"]⟩ ∧
    ({ FileManager.default with
        project_path := some "p", output_path := some "o",
        name := some "a.b",
        extension := some "dat" } : FileManager).calculate_path
      ≠ some (pathOfString ("p" ++ "/" ++ "o" ++ "/" ++ "a.b" ++ "." ++ "dat")) := by
  exact ⟨by decide, by decide⟩

/-- **C4 (amended).** (1) For a descriptor whose four identity fields are
set, with a non-empty project path, a relative output path, and plain
(non-empty, dot- and separator-free) name and extension components, the
resolved path is exactly `project_path/output_path/name.extension` (name
`name_<index>` when a series is set). (2) The identity setters commute
pairwise on every state, so the result is independent of the call order of
distinct setters. -/
theorem c4_path_determinism :
    (∀ (f : FileManager) (proj outp nm e : String),
      f.project_path = some proj → f.output_path = some outp →
      f.name = some nm → f.extension = some e →
      proj ≠ "" → isAbs outp = false → plainComp nm → plainComp e →
      f.calculate_path = some (pathOfString
        (proj ++ "/" ++ outp ++ "/" ++ f.effName nm ++ "." ++ e))) ∧
    (∀ (f : FileManager) (a b : String) (k : Nat),
      ((f.set_header a).set_project_path b
        = (f.set_project_path b).set_header a) ∧
      ((f.set_header a).set_output_path b
        = (f.set_output_path b).set_header a) ∧
      ((f.set_header a).set_file_name b
        = (f.set_file_name b).set_header a) ∧
      ((f.set_header a).set_extension b
        = (f.set_extension b).set_header a) ∧
      ((f.set_header a).set_series k = (f.set_series k).set_header a) ∧
      ((f.set_project_path a).set_output_path b
        = (f.set_output_path b).set_project_path a) ∧
      ((f.set_project_path a).set_file_name b
        = (f.set_file_name b).set_project_path a) ∧
      ((f.set_project_path a).set_extension b
        = (f.set_extension b).set_project_path a) ∧
      ((f.set_project_path a).set_series k
        = (f.set_series k).set_project_path a) ∧
      ((f.set_output_path a).set_file_name b
        = (f.set_file_name b).set_output_path a) ∧
      ((f.set_output_path a).set_extension b
        = (f.set_extension b).set_output_path a) ∧
      ((f.set_output_path a).set_series k
        = (f.set_series k).set_output_path a) ∧
      ((f.set_file_name a).set_extension b
        = (f.set_extension b).set_file_name a) ∧
      ((f.set_file_name a).set_series k
        = (f.set_series k).set_file_name a) ∧
      ((f.set_extension a).set_series k
        = (f.set_series k).set_extension a)) := by
  constructor
  · intro f proj outp nm e hproj houtp hnm he hpne habs hpn hpe
    rw [calculate_path_formula f hproj houtp hnm he habs hpn hpe.1]
    have hplain2 := @effName_plain f nm hpn
    obtain ⟨hen, hes, hed⟩ := hplain2
    have hlastcomp : (f.effName nm ++ "." ++ e) ≠ "" :=
      str_append_ne_left e (str_append_ne_left "." hen)
    have hlastslash : '/' ∉ (f.effName nm ++ "." ++ e).data := by
      intro hx
      rw [str_data_append, str_data_append] at hx
      rcases List.mem_append.mp hx with hx1 | hx2
      · rcases List.mem_append.mp hx1 with hx3 | hx4
        · exact hes hx3
        · exact absurd hx4 (by decide)
      · exact hpe.2.1 hx2
    have n1 : proj ++ "/" ≠ "" := str_append_ne_left "/" hpne
    have n2 : proj ++ "/" ++ outp ≠ "" := str_append_ne_left outp n1
    have n3 : proj ++ "/" ++ outp ++ "/" ≠ "" := str_append_ne_left "/" n2
    have n4 : proj ++ "/" ++ outp ++ "/" ++ f.effName nm ≠ "" :=
      str_append_ne_left _ n3
    have n5 : proj ++ "/" ++ outp ++ "/" ++ f.effName nm ++ "." ≠ "" :=
      str_append_ne_left _ n4
    have habs2 : isAbs (proj ++ "/" ++ outp ++ "/" ++ f.effName nm ++ "."
        ++ e) = isAbs proj := by
      rw [isAbs_append _ e n5, isAbs_append _ "." n4,
        isAbs_append _ (f.effName nm) n3, isAbs_append _ "/" n2,
        isAbs_append _ outp n1, isAbs_append _ "/" hpne]
    have hre : proj ++ "/" ++ outp ++ "/" ++ f.effName nm ++ "." ++ e
        = proj ++ "/" ++ (outp ++ "/" ++ (f.effName nm ++ "." ++ e)) := by
      simp only [str_assoc]
    have hcomps : components (proj ++ "/" ++ outp ++ "/" ++ f.effName nm
        ++ "." ++ e)
        = components proj ++ (components outp ++ [f.effName nm ++ "." ++ e]) := by
      rw [hre, components_append, components_append,
        components_single _ hlastcomp hlastslash]
    unfold pathOfString
    rw [habs2, hcomps]
  · intro f a b k
    obtain ⟨hh, pp, op, nn, ex, se, pa, w⟩ := f
    refine ⟨?_, ?_, ?_, ?_, ?_, ?_, ?_, ?_, ?_, ?_, ?_, ?_, ?_, ?_, ?_⟩
    · cases pa <;> cases hh <;> cases pp <;> rfl
    · cases pa <;> cases hh <;> cases op <;> rfl
    · cases pa <;> cases hh <;> cases nn <;> rfl
    · cases pa <;> cases hh <;> cases ex <;> rfl
    · cases pa <;> cases hh <;> cases se <;> rfl
    · cases pa <;> cases pp <;> cases op <;> rfl
    · cases pa <;> cases pp <;> cases nn <;> rfl
    · cases pa <;> cases pp <;> cases ex <;> rfl
    · cases pa <;> cases pp <;> cases se <;> rfl
    · cases pa <;> cases op <;> cases nn <;> rfl
    · cases pa <;> cases op <;> cases ex <;> rfl
    · cases pa <;> cases op <;> cases se <;> rfl
    · cases pa <;> cases nn <;> cases ex <;> rfl
    · cases pa <;> cases nn <;> cases se <;> rfl
    · cases pa <;> cases ex <;> cases se <;> rfl

/-- Witness for C4 (amended): a plain descriptor resolves to `p/o/f.dat`,
matching the slash-joined formula. -/
theorem c4_path_determinism_witness :
    ({ FileManager.default with
        project_path := some "p", output_path := some "o",
        name := some "f",
        extension := some "dat" } : FileManager).calculate_path
      = some (pathOfString ("p" ++ "/" ++ "o" ++ "/" ++ "f" ++ "." ++ "dat")) := by
  exact c4_path_determinism.1 _ "p" "o" "f" "dat" rfl rfl rfl rfl
    (by decide) (by decide)
    ⟨by decide, by decide, by decide⟩ ⟨by decide, by decide, by decide⟩

/-! ## Archive policy (C2) -/

/-- **C2 (counterexample).** The archive destination mirrors only the
immediate parent directory name under `<root>/archive`, so a descriptor
whose output path is itself `archive/sub` collides with its own archive
destination: the copy lands on the original path and is then truncated by
materialization.  Afterwards no unmodified copy of the old content
(`"old"`) exists anywhere — the only archive location holds `""`. -/
theorem c2_counterexample :
    ProjectManager.try_initialize_output ⟨"r", "e", OverwriteType.Archive⟩
        [(⟨false, ["r", "archive", "sub", "f.e"]⟩, "old")]
        { FileManager.default with
            path := some ⟨false, ["r", "archive", "sub", "f.e"]⟩ }
      = some (.ok ({ FileManager.default with
            path := some ⟨false, ["r", "archive", "sub", "f.e"]⟩,
            writable := true },
          [(⟨false, ["r", "archive", "sub", "f.e"]⟩, ""),
            (⟨false, ["r", "archive", "sub", "f.e"]⟩, "old"),
            (⟨false, ["r", "archive", "sub", "f.e"]⟩, "old")])) ∧
    FS.lookup [(⟨false, ["r", "archive", "sub", "f.e"]⟩, ""),
        (⟨false, ["r", "archive", "sub", "f.e"]⟩, "old"),
        (⟨false, ["r", "archive", "sub", "f.e"]⟩, "old")]
      ⟨false, ["r", "archive", "sub", "f.e"]⟩ = some "" ∧
    ("" : String) ≠ "old" := by
  refine ⟨by rfl, by decide, by decide⟩

/-- **C2 (amended).** For a non-series descriptor under the Archive policy
whose resolved path `p` exists with content `old`, has a file name and a
parent directory name, and whose archive destination
`<root>/archive/<parent-dir-name>/<filename>` differs from `p` itself:
the existing file is first copied — not moved — to the destination, and
only then is `p` truncated and rewritten; afterwards the original path
holds the fresh header content, the archive destination holds the old
content unmodified, and no other path changes. -/
theorem c2_archive_copy_then_truncate (pm : ProjectManager) (fs : FS)
    (f : FileManager) (p dest : PathBuf) (old : String)
    (rs : List String) (dname fname : String)
    (hpol : pm.overwrite_type = OverwriteType.Archive)
    (hpath : f.path = some p) (hser : f.series = none)
    (hold : fs.lookup p = some old)
    (hcomp : p.comps = rs ++ [dname, fname])
    (hdest : dest = (((pathOfString pm.path).push "archive").push
      dname).push fname)
    (hne : dest ≠ p) :
    pm.try_initialize_output fs f
      = some (.ok ({ f with writable := true },
          (fs.write dest old).write p (fileContent f.header))) ∧
    ((fs.write dest old).write p (fileContent f.header)).lookup dest
      = some old ∧
    ((fs.write dest old).write p (fileContent f.header)).lookup p
      = some (fileContent f.header) ∧
    (∀ q : PathBuf, q ≠ p → q ≠ dest →
      ((fs.write dest old).write p (fileContent f.header)).lookup q
        = fs.lookup q) := by
  have hcomp2 : p.comps = (rs ++ [dname]) ++ [fname] := by
    rw [hcomp]; simp
  have hlast : p.comps.getLast? = some fname := by
    rw [hcomp2, List.getLast?_concat]
  have hdrop : p.comps.dropLast = rs ++ [dname] := by
    rw [hcomp2, List.dropLast_concat]
  have hdlast : (rs ++ [dname]).getLast? = some dname :=
    List.getLast?_concat _
  have hexists : fs.pathExists p = true := by
    rw [FS.pathExists, hold]; rfl
  have hmove : move_to_archive fs p ((pathOfString pm.path).push "archive")
      = some (fs.write dest old) := by
    rw [move_to_archive, hlast, hdrop]
    simp only [hdlast, hold, hdest]
  have hcompne : p.comps ≠ [] := by
    rw [hcomp]
    intro hx
    rcases List.append_eq_nil.mp hx with ⟨-, h2⟩
    exact List.cons_ne_nil _ _ h2
  have hinit := @initialize_output_nonseries f (fs.write dest old) p
    hpath hser hcompne
  refine ⟨?_, ?_, ?_, ?_⟩
  · simp only [ProjectManager.try_initialize_output, hpol, hpath, hexists,
      if_true, hmove, hinit]
  · rw [FS.lookup_write, if_neg hne.symm, FS.lookup_write, if_pos rfl]
  · rw [FS.lookup_write, if_pos rfl]
  · intro q hqp hqd
    rw [FS.lookup_write, if_neg (fun hx => hqp hx.symm),
      FS.lookup_write, if_neg (fun hx => hqd hx.symm)]

/-- Witness for C2 (amended): archiving `r/o/f.dat` (content `"old"`)
copies it to `r/archive/o/f.dat` and then truncates the original. -/
theorem c2_archive_copy_then_truncate_witness :
    FS.lookup [(⟨false, ["r", "o", "f.dat"]⟩, ""),
        (⟨false, ["r", "archive", "o", "f.dat"]⟩, "old"),
        (⟨false, ["r", "o", "f.dat"]⟩, "old")]
      ⟨false, ["r", "archive", "o", "f.dat"]⟩ = some "old" ∧
    FS.lookup [(⟨false, ["r", "o", "f.dat"]⟩, ""),
        (⟨false, ["r", "archive", "o", "f.dat"]⟩, "old"),
        (⟨false, ["r", "o", "f.dat"]⟩, "old")]
      ⟨false, ["r", "o", "f.dat"]⟩ = some "" := by
  have h := c2_archive_copy_then_truncate ⟨"r", "dat", OverwriteType.Archive⟩
    [(⟨false, ["r", "o", "f.dat"]⟩, "old")]
    { FileManager.default with path := some ⟨false, ["r", "o", "f.dat"]⟩ }
    ⟨false, ["r", "o", "f.dat"]⟩ ⟨false, ["r", "archive", "o", "f.dat"]⟩
    "old" ["r"] "o" "f.dat" rfl rfl rfl (by decide) (by decide) (by decide)
    (by decide)
  exact ⟨h.2.1, h.2.2.1⟩

/-! ## Panic policy and batch short-circuit (C1) -/

/-- Batch processing splits over append when the prefix fully succeeds. -/
theorem initialize_output_files_append (pm : ProjectManager) :
    ∀ (pre : List FileManager) (fs fs1 : FS) (pre' post : List FileManager),
      pm.initialize_output_files fs pre = some (.ok (), fs1, pre') →
      pm.initialize_output_files fs (pre ++ post)
        = (match pm.initialize_output_files fs1 post with
          | none => none
          | some (r, fs2, post') => some (r, fs2, pre' ++ post')) := by
  intro pre
  induction pre with
  | nil =>
    intro fs fs1 pre' post h
    simp only [ProjectManager.initialize_output_files, Option.some.injEq,
      Prod.mk.injEq] at h
    obtain ⟨-, hfs, hpre⟩ := h
    rw [List.nil_append, hfs, ← hpre]
    cases hip : pm.initialize_output_files fs1 post with
    | none => rfl
    | some r =>
      obtain ⟨r2, fs2, post'⟩ := r
      rfl
  | cons a pre ih =>
    intro fs fs1 pre' post h
    rw [List.cons_append]
    simp only [ProjectManager.initialize_output_files] at h ⊢
    cases htry : pm.try_initialize_output fs
        (((a.set_project_path pm.path).set_extension pm.extension).set_path) with
    | none =>
      simp only [htry] at h
      exact Option.noConfusion h
    | some r =>
      cases r with
      | error e =>
        simp only [htry, Option.some.injEq, Prod.mk.injEq] at h
        exact absurd h.1 (by simp)
      | ok rr =>
        obtain ⟨f2, fs2⟩ := rr
        simp only [htry] at h ⊢
        cases hrest : pm.initialize_output_files fs2 pre with
        | none =>
          simp only [hrest] at h
          exact Option.noConfusion h
        | some rr2 =>
          obtain ⟨r2, fs3, rest2⟩ := rr2
          simp only [hrest, Option.some.injEq, Prod.mk.injEq] at h
          obtain ⟨hr2, hfs3, hrest2⟩ := h
          have hpre2 : pm.initialize_output_files fs2 pre
              = some (.ok (), fs1, rest2) := by
            rw [hrest, hr2, hfs3]
          rw [ih fs2 fs1 rest2 post hpre2, ← hrest2]
          cases hpost : pm.initialize_output_files fs1 post with
          | none => rfl
          | some rr3 =>
            obtain ⟨r3, fs4, post'⟩ := rr3
            rfl

/-- **C1.** Under the Panic policy, when the batch reaches a descriptor
whose freshly resolved path exists on disk, the whole call returns exactly
the error `"Permission denied to overwrite existing output files."`; the
filesystem is returned as it was at that moment (the existing file is
untouched), and the colliding descriptor and everything after it are left
unprocessed — the first error is the aggregate result. -/
theorem c1_panic_short_circuit (pm : ProjectManager) (fs fs1 : FS)
    (pre pre' post : List FileManager) (d : FileManager) (p : PathBuf)
    (hpol : pm.overwrite_type = OverwriteType.Panic)
    (hpre : pm.initialize_output_files fs pre = some (.ok (), fs1, pre'))
    (hpath : (((d.set_project_path pm.path).set_extension
      pm.extension).set_path).path = some p)
    (hex : fs1.pathExists p = true) :
    pm.initialize_output_files fs (pre ++ d :: post)
      = some (.error "Permission denied to overwrite existing output files.",
          fs1,
          pre' ++ (((d.set_project_path pm.path).set_extension
            pm.extension).set_path) :: post) := by
  rw [initialize_output_files_append pm pre fs fs1 pre' (d :: post) hpre]
  have htry : pm.try_initialize_output fs1
      (((d.set_project_path pm.path).set_extension pm.extension).set_path)
      = some (.error
          "Permission denied to overwrite existing output files.") := by
    simp only [ProjectManager.try_initialize_output, hpol, hpath, hex,
      if_true]
  simp only [ProjectManager.initialize_output_files, htry]

/-- Witness for C1: with root `"r"`, default extension `"dat"` and an
existing `r/o/f.dat`, a two-descriptor batch errors on the first
descriptor, leaves the filesystem unchanged, and never processes the
second (returned in its untouched default state). -/
theorem c1_panic_short_circuit_witness :
    ProjectManager.initialize_output_files ⟨"r", "dat", OverwriteType.Panic⟩
        [(⟨false, ["r", "o", "f.dat"]⟩, "x")]
        [{ FileManager.default with
            output_path := some "o", name := some "f" },
          FileManager.default]
      = some (.error "Permission denied to overwrite existing output files.",
          [(⟨false, ["r", "o", "f.dat"]⟩, "x")],
          [{ FileManager.default with
              output_path := some "o", name := some "f",
              project_path := some "r", extension := some "dat",
              path := some ⟨false, ["r", "o", "f.dat"]⟩ },
            FileManager.default]) := by
  have h := c1_panic_short_circuit ⟨"r", "dat", OverwriteType.Panic⟩
    [(⟨false, ["r", "o", "f.dat"]⟩, "x")]
    [(⟨false, ["r", "o", "f.dat"]⟩, "x")]
    [] [] [FileManager.default]
    { FileManager.default with output_path := some "o", name := some "f" }
    ⟨false, ["r", "o", "f.dat"]⟩
    rfl rfl (by decide) (by decide)
  exact h
